import Mathlib

/-!
Verification of the playback core of a browser audiobook reader
(single source file `app.js`).

The embedding below translates the relevant JavaScript functions into Lean:

* `split`    — sentence splitting (`split` in app.js, lines 197-207), with the
               regex `[^.!?]+[.!?]+[\s]*` modelled by the scanner `scanSpansF`;
* `parseTxt` — the chapter text parser (lines 23-99), including the inline
               Markdown stripping `stripMd` (non-greedy global replace);
* `fns`/`fps` — the paragraph cursor (lines 312-313);
* `spkP`/`spkS`/`stp` and the continuation machinery (`Cb`, `fire`,
  `runSeq`) — the playback controller state machine (lines 296-342).

Strings are modelled as `List Char`; JavaScript string lengths are
code-point counts here (the inputs of interest are ASCII, where the two
coincide).  Timer- and speech-callback scheduling is modelled by an explicit
pending-continuation list consumed by an adversarial scheduler (`runSeq`);
the outcome of a submitted utterance (end / canceled error / other error)
is nondeterministic, so submitting an utterance schedules all three
possible engine callbacks and the scheduler chooses which fire.
-/

set_option maxRecDepth 10000

/-- JavaScript sentence terminator test: the character class `[.!?]`. -/
def isPunct (c : Char) : Bool := c == '.' || c == '!' || c == '?'

/-- Whitespace as used by JavaScript `trim` and the `\s` class (the subset
relevant to the inputs: space, tab, LF, CR, VT, FF, NBSP). -/
def isWs (c : Char) : Bool :=
  c == ' ' || c == '\t' || c == '\n' || c == '\r' ||
  c == Char.ofNat 11 || c == Char.ofNat 12 || c == Char.ofNat 160

/-- The section break marker string `'§'` used in app.js. -/
def brk : List Char := ['§']

/-- JavaScript `String.prototype.trim`: drop whitespace from both ends. -/
def trim (l : List Char) : List Char :=
  ((l.dropWhile isWs).reverse.dropWhile isWs).reverse

/-- `a.isPre b`: `b.startsWith(a)` in JavaScript (list prefix test). -/
def isPre : List Char → List Char → Bool
  | [], _ => true
  | _ :: _, [] => false
  | a :: as, b :: bs => a == b && isPre as bs

/-!
## Sentence splitting (`split`, app.js lines 197-207)

```js
function split(t) {
    if (t.length <= MAX_U) return [t];
    const r = t.match(/[^.!?]+[.!?]+[\s]*/g) || [t], o = [];
    let b = '';
    for (const s of r) {
        if ((b + s).length > MAX_U && b) { o.push(b.trim()); b = s; }
        else b += s;
    }
    if (b.trim()) o.push(b.trim());
    return o;
}
```

`scanSpansF` reproduces the global regex match: each match is a maximal run
of non-terminators, a maximal run of terminators, then a maximal run of
whitespace; positions where no match can start (leading terminator
characters) are skipped, and a trailing portion with no terminator is not
matched at all.  Fuel is the remaining string length (each step consumes at
least one character).
-/

def scanSpansF : Nat → List Char → List (List Char)
  | 0, _ => []
  | _ + 1, [] => []
  | fuel + 1, c :: cs =>
    if isPunct c then scanSpansF fuel cs
    else
      let r1 := (c :: cs).dropWhile (fun x => !isPunct x)
      match r1 with
      | [] => []
      | _ :: _ =>
        let a := (c :: cs).takeWhile (fun x => !isPunct x)
        let b := r1.takeWhile isPunct
        let r2 := r1.dropWhile isPunct
        let w := r2.takeWhile isWs
        let r3 := r2.dropWhile isWs
        (a ++ b ++ w) :: scanSpansF fuel r3

/-- All regex matches of `[^.!?]+[.!?]+[\s]*` over `t`, in order. -/
def scanSpans (t : List Char) : List (List Char) := scanSpansF t.length t

/-- `t.match(...) || [t]`: the match list, or the whole text if no match. -/
def sentenceSpans (t : List Char) : List (List Char) :=
  match scanSpans t with
  | [] => [t]
  | s :: ss => s :: ss

/-- The greedy packing loop of `split` (the `for (const s of r)` loop plus
the final flush), with `b` the current buffer. -/
def pack (maxU : Nat) : List (List Char) → List Char → List (List Char)
  | [], b => if trim b = [] then [] else [trim b]
  | s :: rest, b =>
    if maxU < (b ++ s).length ∧ b ≠ [] then trim b :: pack maxU rest s
    else pack maxU rest (b ++ s)

/-- `split` from app.js; `maxU` is the platform constant `MAX_U`. -/
def split (maxU : Nat) (t : List Char) : List (List Char) :=
  if t.length ≤ maxU then [t] else pack maxU (sentenceSpans t) []

/-- `u` is the trim of one of the sentence spans of `t` (Bool form). -/
def fromSpanB (t u : List Char) : Bool :=
  (sentenceSpans t).any fun s => u = trim s

/-- The last character of `u` is a sentence terminator. -/
def lastPunct (u : List Char) : Bool :=
  match u.getLast? with
  | some c => isPunct c
  | none => false

/-!
## Paragraph cursor (`fns`/`fps`, app.js lines 312-313)

```js
function fns(f) { const p = C[cCh].p; let i = f; while (i < p.length && p[i] === '§') i++; return i; }
function fps(f) { const p = C[cCh].p; let i = f; while (i >= 0 && p[i] === '§') i--; return Math.max(0, i); }
```

A paragraph is a string; a section break is the one-character string `'§'`.
-/

/-- One chapter paragraph: a string (the break marker is the string `brk`). -/
abbrev Para := List Char

/-- `fns(f)`: skip forward over the run of consecutive breaks starting at
`f` (the `while` loop adds one per leading break of `p.drop f`). -/
def fns (p : List Para) (f : Nat) : Nat :=
  f + ((p.drop f).takeWhile (fun q => q == brk)).length

/-- The backward walk of `fps` on nonnegative indices (structural in `i`);
at `i = 0` the JS loop either returns 0 directly or steps to `-1` and then
`Math.max(0, -1) = 0`. -/
def fpsNat (p : List Para) : Nat → Nat
  | 0 => 0
  | i + 1 => if p[i + 1]? = some brk then fpsNat p i else i + 1

/-- `fps(f)`; the argument is an integer because the caller passes `cP - 1`,
which is `-1` when `cP = 0`. -/
def fps (p : List Para) (f : Int) : Nat :=
  if f < 0 then 0 else fpsNat p f.toNat

/-!
## Chapter text parser (`parseTxt`, app.js lines 23-99)

`stripMd` is
```js
s.replace(/\*\*(.+?)\*\*/g, '$1').replace(/\*(.+?)\*/g, '$1')
```
a bold pass then an italic pass.  Each pass scans left to right; at an
opening marker it looks for the nearest closing marker after at least one
content character (the lazy `(.+?)`), emits the content in place of the
whole match and resumes after it; if no close exists the character is kept
and scanning resumes one position later.  Lines contain no newline, so the
`.` class matches every content character.
-/

/-- Split the first occurrence of `**` off a string: `some (before, after)`
with `l = before ++ '*' :: '*' :: after`, scanning left to right. -/
def findDD : List Char → Option (List Char × List Char)
  | [] => none
  | c :: rest =>
    if c == '*' then
      match rest with
      | c2 :: rest2 =>
        if c2 == '*' then some ([], rest2)
        else (findDD rest).map fun pr => (c :: pr.1, pr.2)
      | [] => none
    else (findDD rest).map fun pr => (c :: pr.1, pr.2)

/-- First `**` occurring at position at least 1 (so the lazy `(.+?)` content
before it is nonempty). -/
def findDD1 : List Char → Option (List Char × List Char)
  | [] => none
  | c :: r => (findDD r).map fun pr => (c :: pr.1, pr.2)

/-- Split the first `*` off a string. -/
def findS : List Char → Option (List Char × List Char)
  | [] => none
  | c :: rest =>
    if c == '*' then some ([], rest)
    else (findS rest).map fun pr => (c :: pr.1, pr.2)

/-- First `*` occurring at position at least 1. -/
def findS1 : List Char → Option (List Char × List Char)
  | [] => none
  | c :: r => (findS r).map fun pr => (c :: pr.1, pr.2)

/-- The bold pass `replace(/\*\*(.+?)\*\*/g, '$1')`; fuel is the remaining
length (each step consumes at least one character). -/
def stripBoldGo : Nat → List Char → List Char
  | 0, l => l
  | _ + 1, [] => []
  | fuel + 1, c :: rest =>
    if c == '*' then
      match rest with
      | c2 :: rest2 =>
        if c2 == '*' then
          match findDD1 rest2 with
          | some (content, after) => content ++ stripBoldGo fuel after
          | none => c :: stripBoldGo fuel rest
        else c :: stripBoldGo fuel rest
      | [] => [c]
    else c :: stripBoldGo fuel rest

def stripBold (l : List Char) : List Char := stripBoldGo l.length l

/-- The italic pass `replace(/\*(.+?)\*/g, '$1')`. -/
def stripItalGo : Nat → List Char → List Char
  | 0, l => l
  | _ + 1, [] => []
  | fuel + 1, c :: rest =>
    if c == '*' then
      match findS1 rest with
      | some (content, after) => content ++ stripItalGo fuel after
      | none => c :: stripItalGo fuel rest
    else c :: stripItalGo fuel rest

def stripItal (l : List Char) : List Char := stripItalGo l.length l

/-- `stripMd` from app.js: bold replace, then italic replace. -/
def stripMd (l : List Char) : List Char := stripItal (stripBold l)

/-- JavaScript `text.split('\n')` (empty pieces preserved). -/
def splitNl : List Char → List (List Char)
  | [] => [[]]
  | c :: rest =>
    if c == '\n' then [] :: splitNl rest
    else
      match splitNl rest with
      | l :: ls => (c :: l) :: ls
      | [] => [[c]]

/-- The parser state: accumulated paragraphs and the current buffer `buf`. -/
abbrev PSt := List Para × List Char

/-- `flush()`: push `buf.trim()` if nonempty and clear `buf` (a whitespace
only `buf` is kept unchanged, exactly as in the source). -/
def flushF (st : PSt) : PSt :=
  if trim st.2 = [] then st else (st.1 ++ [trim st.2], [])

/-- `addBreak()`: flush, then push `'§'` unless the list is empty or already
ends in `'§'`. -/
def addBreakF (st : PSt) : PSt :=
  let st1 := flushF st
  if st1.1 ≠ [] ∧ st1.1.getLast? ≠ some brk then (st1.1 ++ [brk], st1.2)
  else st1

/-- The teaser test `/^\*Chapter \d/`: prefix `*Chapter ` then a digit. -/
def isChapterTeaser (l : List Char) : Bool :=
  isPre "*Chapter ".data l &&
    match l.drop 9 with
    | c :: _ => c.isDigit
    | [] => false

/-- One iteration of the `for` loop of `parseTxt` over a line. -/
def parseStep (st : PSt) (line : List Char) : PSt :=
  let trm := trim line
  if trm = brk ∨ trm = "---".data then addBreakF st
  else if isPre "### ".data trm then
    let st1 := addBreakF st
    let ht := stripMd ((trm.drop 3).dropWhile isWs)
    if ht = [] then st1 else (st1.1 ++ [ht], st1.2)
  else if isChapterTeaser trm ∨ isPre "*End of ".data trm ∨
      isPre "*For guided audio".data trm then st
  else if trm = [] then flushF st
  else
    let clean := stripMd trm
    (st.1, if st.2 = [] then clean else st.2 ++ ' ' :: clean)

/-- The final `while (paragraphs.length && last === '§') pop()` loop. -/
def popTrailBrk (ps : List Para) : List Para :=
  ((ps.reverse).dropWhile (fun q => q == brk)).reverse

/-- `parseTxt` from app.js: skip a title line (and following blanks), run
the line loop, flush, drop trailing breaks. -/
def parseTxt (text : List Char) : List Para :=
  let lines := splitNl text
  let body :=
    match lines with
    | [] => []
    | l0 :: rest =>
      let f := trim l0
      if isPre "## CHAPTER".data f || isPre "## Chapter".data f ||
          isPre "Chapter ".data f then
        rest.dropWhile fun l => trim l == []
      else l0 :: rest
  let st := body.foldl parseStep ([], [])
  popTrailBrk (flushF st).1

/-!
## Playback controller (app.js lines 296-342)

```js
function spkS(ss, done) {
    sQ = ss; sI = 0;
    function nx() {
        if (!playing || sI >= sQ.length) { if (done) done(); return; }
        const u = new SpeechSynthesisUtterance(sQ[sI]);
        ...
        u.onend = () => { sI++; if (playing) setTimeout(nx, IOS ? 80 : 50); };
        u.onerror = e => { if (e.error === 'canceled') return; sI++; if (playing) setTimeout(nx, 200); };
        S.cancel();
        setTimeout(() => S.speak(u), IOS ? 50 : 10);
    }
    nx();
}
function spkP(i) {
    const c = C[cCh];
    if (i >= c.p.length) {
        if (cCh < C.length - 1) { rCh(cCh + 1); setTimeout(() => { if (playing) spkP(fns(0)); }, 600); }
        else { stp(); tst(... + ' complete'); }
        return;
    }
    if (c.p[i] === '§') { cP = fns(i + 1); setTimeout(() => { if (playing) spkP(cP); }, 700); return; }
    cP = i; hl(i); uPr();
    spkS(split(c.p[i]), () => {
        if (!playing) return;
        const ni = fns(i + 1); cP = ni;
        setTimeout(() => { if (playing) spkP(ni); }, 350);
    });
}
function ply() { playing = 1; uBtn(); spkP(fns(cP)); }
function stp() { playing = 0; S.cancel(); uBtn(); }
```

The controller globals become the record `St`.  Externally observable
actions become events `Ev` — the Position Publisher calls are `hlE` (the
`hl` highlight) and `uPrE` (the `uPr` progress update, also invoked at the
end of `rCh`); `cancelE` is `S.cancel()`, `speakE` is `S.speak(u)`,
`toastE` is the `tst` notification.  Every `setTimeout` closure and every
engine callback becomes a `Cb`, fired later by the scheduler; `di` is the
paragraph index captured by the `done` closure of the `spkS` call that
created the continuation.
-/

/-- The controller globals `playing, cCh, cP, sQ, sI`. -/
structure St where
  playing : Bool
  cCh : Nat
  cP : Nat
  sQ : List (List Char)
  sI : Nat
  deriving DecidableEq, Repr

/-- Externally observable actions of the controller. -/
inductive Ev where
  | hlE (i : Nat)
  | uPrE
  | cancelE
  | speakE (txt : List Char)
  | toastE
  deriving DecidableEq, Repr

/-- A Position Publisher call: a highlight or progress update. -/
def isPub : Ev → Bool
  | Ev.hlE _ => true
  | Ev.uPrE => true
  | _ => false

/-- Scheduled continuations (timer callbacks and engine callbacks). -/
inductive Cb where
  | timerChap
  | timerBreak
  | timerNext (ni : Nat)
  | delayedSpeak (txt : List Char) (di : Nat)
  | onEnd (di : Nat)
  | onErr (canceled : Bool) (di : Nat)
  | nxCont (di : Nat)
  deriving DecidableEq, Repr

/-- `stp()` on the controller state: `playing = 0` (it also emits
`S.cancel()` and repaints the button, which do not touch the state). -/
def stp (st : St) : St := { st with playing := false }

/-- The state change of `rCh(i)`: `cCh = i; cP = 0; sQ = []; sI = 0`. -/
def rChS (st : St) (i : Nat) : St :=
  { st with cCh := i, cP := 0, sQ := [], sI := 0 }

/-- The `done` closure that `spkP(i)` hands to `spkS` (with `di = i`):
re-checks `playing`, advances `cP` to the next speakable index and
schedules the 350 ms continuation. -/
def doneF (C : List (List Para)) (di : Nat) (st : St) :
    St × List Ev × List Cb :=
  if st.playing then
    let ni := fns (C.getD st.cCh []) (di + 1)
    ({ st with cP := ni }, [], [Cb.timerNext ni])
  else (st, [], [])

/-- The body of `nx()`: either hand over to `done`, or cancel the platform
queue and schedule the delayed `S.speak` of the current unit. -/
def nxF (C : List (List Para)) (di : Nat) (st : St) :
    St × List Ev × List Cb :=
  if st.playing = false ∨ st.sQ.length ≤ st.sI then doneF C di st
  else (st, [Ev.cancelE], [Cb.delayedSpeak (st.sQ.getD st.sI []) di])

/-- `spkS(ss, done)`: store the unit queue, reset the unit index, run
`nx()` once synchronously. -/
def spkSF (C : List (List Para)) (di : Nat) (ss : List (List Char))
    (st : St) : St × List Ev × List Cb :=
  nxF C di { st with sQ := ss, sI := 0 }

/-- `spkP(i)`: the per-paragraph playback step (chapter advance / book
complete, section break skip, or speak the paragraph). -/
def spkP (C : List (List Para)) (maxU : Nat) (i : Nat) (st : St) :
    St × List Ev × List Cb :=
  let c := C.getD st.cCh []
  if c.length ≤ i then
    if (st.cCh : Int) < (C.length : Int) - 1 then
      (rChS st (st.cCh + 1), [Ev.uPrE], [Cb.timerChap])
    else
      (stp st, [Ev.cancelE, Ev.toastE], [])
  else if c.getD i [] = brk then
    ({ st with cP := fns c (i + 1) }, [], [Cb.timerBreak])
  else
    let st1 := { st with cP := i }
    let r := spkSF C i (split maxU (c.getD i [])) st1
    (r.1, Ev.hlE i :: Ev.uPrE :: r.2.1, r.2.2)

/-- Fire one pending continuation.  Submitting an utterance
(`delayedSpeak`) makes the engine outcome pending; since that outcome is
nondeterministic, all three callbacks are scheduled and the adversarial
scheduler picks which of them fire. -/
def fire (C : List (List Para)) (maxU : Nat) : Cb → St → St × List Ev × List Cb
  | Cb.timerChap, st =>
    if st.playing then spkP C maxU (fns (C.getD st.cCh []) 0) st else (st, [], [])
  | Cb.timerBreak, st =>
    if st.playing then spkP C maxU st.cP st else (st, [], [])
  | Cb.timerNext ni, st =>
    if st.playing then spkP C maxU ni st else (st, [], [])
  | Cb.delayedSpeak txt di, st =>
    (st, [Ev.speakE txt], [Cb.onEnd di, Cb.onErr true di, Cb.onErr false di])
  | Cb.onEnd di, st =>
    ({ st with sI := st.sI + 1 }, [], if st.playing then [Cb.nxCont di] else [])
  | Cb.onErr canceled di, st =>
    if canceled then (st, [], [])
    else ({ st with sI := st.sI + 1 }, [], if st.playing then [Cb.nxCont di] else [])
  | Cb.nxCont di, st => nxF C di st

/-- Run an adversarially chosen sequence of pending continuations: each
pick chooses a pending entry by position (out-of-range picks are skipped),
fires it, removes it, and appends whatever it scheduled.  Returns the final
state and the concatenated event trace. -/
def runSeq (C : List (List Para)) (maxU : Nat) :
    List Nat → List Cb → St → St × List Ev
  | [], _, st => (st, [])
  | n :: rest, pending, st =>
    match pending[n]? with
    | none => runSeq C maxU rest pending st
    | some k =>
      let r := fire C maxU k st
      let r2 := runSeq C maxU rest (pending.eraseIdx n ++ r.2.2) r.1
      (r2.1, r.2.1 ++ r2.2)

/-- `l`, read backwards and ignoring trailing whitespace, starts with a
sentence terminator (used as the buffer invariant of the packing loop). -/
def RPH (l : List Char) : Prop :=
  ∃ c cs, l.reverse.dropWhile isWs = c :: cs ∧ isPunct c = true

/-- A 182-character text: 181 dots followed by `x`.  It is longer than the
iOS `MAX_U = 180`, contains sentence terminators, yet the sentence regex
finds no match in it (every terminator lacks preceding sentence text), so
`split` falls back to returning the whole text. -/
def dotsTail : List Char := List.replicate 181 '.' ++ ['x']

/-! ## Helper lemmas -/

theorem punct_not_ws {c : Char} (h : isPunct c = true) : isWs c = false := by
  simp only [isPunct, Bool.or_eq_true, beq_iff_eq] at h
  rcases h with (h | h) | h <;> subst h <;> decide

theorem ws_not_punct {c : Char} (h : isWs c = true) : isPunct c = false := by
  simp only [isWs, Bool.or_eq_true, beq_iff_eq] at h
  rcases h with (((((h | h) | h) | h) | h) | h) | h <;> subst h <;> decide

theorem head_dropWhile_false {α : Type} {p : α → Bool} :
    ∀ {l : List α} {c : α} {cs : List α}, l.dropWhile p = c :: cs → p c = false := by
  intro l
  induction l with
  | nil => intro c cs h; simp [List.dropWhile] at h
  | cons a l ih =>
    intro c cs h
    by_cases hp : p a
    · rw [List.dropWhile_cons_of_pos hp] at h; exact ih h
    · rw [List.dropWhile_cons_of_neg hp] at h
      cases h; simpa using hp

theorem mem_of_mem_dropWhile {α : Type} {p : α → Bool} {x : α} {l : List α}
    (h : x ∈ l.dropWhile p) : x ∈ l := by
  have := List.takeWhile_append_dropWhile p l
  rw [← this]
  exact List.mem_append.mpr (Or.inr h)

theorem length_dropWhile_le {α : Type} (p : α → Bool) :
    ∀ l : List α, (l.dropWhile p).length ≤ l.length := by
  intro l
  induction l with
  | nil => simp
  | cons a l ih =>
    by_cases hp : p a
    · rw [List.dropWhile_cons_of_pos hp]; exact Nat.le_succ_of_le ih
    · rw [List.dropWhile_cons_of_neg hp]

theorem dropWhile_append_ne {α : Type} {p : α → Bool} {u v : List α}
    (h : u.dropWhile p ≠ []) :
    (u ++ v).dropWhile p = u.dropWhile p ++ v := by
  rw [List.dropWhile_append]
  simp [List.isEmpty_iff, h]

theorem trim_length_le (l : List Char) : (trim l).length ≤ l.length := by
  unfold trim
  calc ((l.dropWhile isWs).reverse.dropWhile isWs).reverse.length
      = ((l.dropWhile isWs).reverse.dropWhile isWs).length := List.length_reverse _
    _ ≤ (l.dropWhile isWs).reverse.length := length_dropWhile_le _ _
    _ = (l.dropWhile isWs).length := List.length_reverse _
    _ ≤ l.length := length_dropWhile_le _ _

theorem trim_eq_nil_iff (l : List Char) :
    trim l = [] ↔ ∀ c ∈ l, isWs c = true := by
  unfold trim
  rw [List.reverse_eq_nil_iff, List.dropWhile_eq_nil_iff]
  constructor
  · intro h c hc
    rcases List.mem_append.mp
        (by rw [List.takeWhile_append_dropWhile (p := isWs) (l := l)]; exact hc) with h1 | h1
    · exact List.mem_takeWhile_imp h1
    · exact h c (List.mem_reverse.mpr h1)
  · intro h c hc
    exact h c (mem_of_mem_dropWhile (List.mem_reverse.mp hc))

theorem rph_append {s : List Char} (x : List Char) (h : RPH s) : RPH (x ++ s) := by
  rcases h with ⟨c, cs, hd, hp⟩
  refine ⟨c, cs ++ x.reverse, ?_, hp⟩
  rw [List.reverse_append, dropWhile_append_ne (by rw [hd]; simp), hd]
  rfl

theorem trim_lastPunct {b : List Char} (h : RPH b) : lastPunct (trim b) = true := by
  rcases h with ⟨c, cs, hd, hp⟩
  have hsplit : b.reverse = (b.dropWhile isWs).reverse ++ (b.takeWhile isWs).reverse := by
    rw [← List.reverse_append, List.takeWhile_append_dropWhile]
  have htk : ∀ a ∈ (b.takeWhile isWs).reverse, isWs a = true := by
    intro a ha
    exact List.mem_takeWhile_imp (List.mem_reverse.mp ha)
  have hne : (b.dropWhile isWs).reverse.dropWhile isWs ≠ [] := by
    intro hnil
    rw [hsplit, List.dropWhile_append, hnil] at hd
    simp only [List.isEmpty_nil, if_true] at hd
    rw [List.dropWhile_eq_nil_iff.mpr htk] at hd
    exact List.noConfusion hd
  have heq : (b.dropWhile isWs).reverse.dropWhile isWs ++ (b.takeWhile isWs).reverse
      = c :: cs := by
    rw [← dropWhile_append_ne hne, ← hsplit, hd]
  rcases hu : (b.dropWhile isWs).reverse.dropWhile isWs with _ | ⟨d, ds⟩
  · exact absurd hu hne
  · rw [hu] at heq
    have hdc : d = c := by
      have := congrArg List.head? heq
      simpa using this
    unfold lastPunct trim
    rw [hu, List.getLast?_reverse]
    simp [hdc, hp]

theorem trim_rph_ne_nil {b : List Char} (h : RPH b) : trim b ≠ [] := by
  intro hnil
  have := trim_lastPunct h
  rw [hnil] at this
  simp [lastPunct] at this

/-! ## Scanner lemmas -/

theorem scanSpansF_rph :
    ∀ (fuel : Nat) (t : List Char), ∀ s ∈ scanSpansF fuel t, RPH s := by
  intro fuel
  induction fuel with
  | zero => intro t s hs; simp [scanSpansF] at hs
  | succ fuel ih =>
    intro t s hs
    match t with
    | [] => simp [scanSpansF] at hs
    | c :: cs =>
      rw [scanSpansF] at hs
      by_cases hc : isPunct c
      · rw [if_pos hc] at hs; exact ih cs s hs
      · rw [if_neg hc] at hs
        rcases hr : (c :: cs).dropWhile (fun x => !isPunct x) with _ | ⟨x, xs⟩
        · rw [hr] at hs; simp at hs
        · rw [hr] at hs
          simp only [List.mem_cons] at hs
          rcases hs with hs | hs
          · -- s is the span a ++ b ++ w
            subst hs
            have hx : isPunct x = true := by
              have := head_dropWhile_false hr
              simpa using this
            rcases hrev : ((x :: xs).takeWhile isPunct).reverse with _ | ⟨d, ds⟩
            · rw [List.takeWhile_cons_of_pos hx] at hrev
              exact absurd (congrArg List.length hrev) (by simp)
            · have hdmem : d ∈ (x :: xs).takeWhile isPunct := by
                have hm : d ∈ ((x :: xs).takeWhile isPunct).reverse := by
                  rw [hrev]; simp
                exact List.mem_reverse.mp hm
              have hd : isPunct d = true := List.mem_takeWhile_imp hdmem
              refine ⟨d, ds ++ ((c :: cs).takeWhile (fun x => !isPunct x)).reverse, ?_, hd⟩
              rw [List.reverse_append, List.reverse_append,
                List.dropWhile_append_of_pos
                  (fun y hy => List.mem_takeWhile_imp (List.mem_reverse.mp hy)),
                dropWhile_append_ne
                  (by rw [hrev,
                        List.dropWhile_cons_of_neg (by simp [punct_not_ws hd])]
                      simp),
                hrev, List.dropWhile_cons_of_neg (by simp [punct_not_ws hd])]
              rfl
          · exact ih _ s hs

theorem scanSpansF_allWs :
    ∀ (fuel : Nat) (t : List Char), (∀ c ∈ t, isWs c = true) →
      scanSpansF fuel t = [] := by
  intro fuel
  induction fuel with
  | zero => intro t _; rfl
  | succ fuel ih =>
    intro t ht
    match t with
    | [] => rfl
    | c :: cs =>
      rw [scanSpansF]
      have hc : isPunct c = false := ws_not_punct (ht c (by simp))
      rw [if_neg (by simp [hc])]
      have hr : (c :: cs).dropWhile (fun x => !isPunct x) = [] := by
        rw [List.dropWhile_eq_nil_iff]
        intro x hx
        simp [ws_not_punct (ht x hx)]
      rw [hr]

/-- Every real sentence span contains a non-whitespace character (its
terminator). -/
theorem span_has_nonWs {t s : List Char} (hs : s ∈ scanSpans t) :
    ¬ ∀ c ∈ s, isWs c = true := by
  intro hall
  rcases scanSpansF_rph t.length t s hs with ⟨c, cs, hd, hp⟩
  have hc : c ∈ s := by
    have h1 : c ∈ s.reverse.dropWhile isWs := by rw [hd]; simp
    exact List.mem_reverse.mp (mem_of_mem_dropWhile h1)
  exact absurd (hall c hc) (by simp [punct_not_ws hp])

/-! ## Packing loop invariants -/

theorem pack_mem (maxU : Nat) (R : List (List Char)) :
    ∀ (r : List (List Char)) (b : List Char),
      (∀ s ∈ r, s ∈ R) →
      (b = [] ∨ b.length ≤ maxU ∨ ∃ s ∈ R, b = s) →
      ∀ u ∈ pack maxU r b, u.length ≤ maxU ∨ ∃ s ∈ R, u = trim s := by
  intro r
  induction r with
  | nil =>
    intro b _ hb u hu
    rw [pack] at hu
    by_cases hb0 : trim b = []
    · rw [if_pos hb0] at hu; simp at hu
    · rw [if_neg hb0] at hu
      simp only [List.mem_singleton] at hu
      subst hu
      rcases hb with hb | hb | ⟨s, hsR, hb⟩
      · exact absurd (by rw [hb]; rfl) hb0
      · exact Or.inl (Nat.le_trans (trim_length_le b) hb)
      · exact Or.inr ⟨s, hsR, by rw [hb]⟩
  | cons s rest ih =>
    intro b hr hb u hu
    have hsR : s ∈ R := hr s (by simp)
    have hrest : ∀ x ∈ rest, x ∈ R := fun x hx => hr x (by simp [hx])
    rw [pack] at hu
    by_cases hcond : maxU < (b ++ s).length ∧ b ≠ []
    · rw [if_pos hcond] at hu
      rcases List.mem_cons.mp hu with hu | hu
      · subst hu
        rcases hb with hb | hb | ⟨s', hs'R, hb⟩
        · exact absurd hb hcond.2
        · exact Or.inl (Nat.le_trans (trim_length_le b) hb)
        · exact Or.inr ⟨s', hs'R, by rw [hb]⟩
      · exact ih s hrest (Or.inr (Or.inr ⟨s, hsR, rfl⟩)) u hu
    · rw [if_neg hcond] at hu
      rcases Decidable.not_and_iff_or_not.mp hcond with hc | hc
      · exact ih (b ++ s) hrest (Or.inr (Or.inl (Nat.le_of_not_lt hc))) u hu
      · have hb0 : b = [] := Decidable.not_not.mp hc
        subst hb0
        exact ih s hrest (Or.inr (Or.inr ⟨s, hsR, rfl⟩)) u (by simpa using hu)

theorem pack_ne_nil (maxU : Nat) :
    ∀ (r : List (List Char)) (b : List Char),
      ((∃ s ∈ r, ¬ ∀ c ∈ s, isWs c = true) ∨ ¬ ∀ c ∈ b, isWs c = true) →
      pack maxU r b ≠ [] := by
  intro r
  induction r with
  | nil =>
    intro b hb
    rcases hb with ⟨s, hs, _⟩ | hb
    · simp at hs
    · rw [pack, if_neg (fun h => hb ((trim_eq_nil_iff b).mp h))]
      simp
  | cons s rest ih =>
    intro b hb
    rw [pack]
    by_cases hcond : maxU < (b ++ s).length ∧ b ≠ []
    · rw [if_pos hcond]; simp
    · rw [if_neg hcond]
      apply ih (b ++ s)
      rcases hb with ⟨s', hs', hw⟩ | hb
      · rcases List.mem_cons.mp hs' with h1 | h1
        · subst h1
          exact Or.inr fun hall => hw fun c hc => hall c (List.mem_append.mpr (Or.inr hc))
        · exact Or.inl ⟨s', h1, hw⟩
      · exact Or.inr fun hall => hb fun c hc => hall c (List.mem_append.mpr (Or.inl hc))

theorem pack_rph (maxU : Nat) :
    ∀ (r : List (List Char)) (b : List Char),
      (∀ s ∈ r, RPH s) → (b = [] ∨ RPH b) →
      ∀ u ∈ pack maxU r b, lastPunct u = true := by
  intro r
  induction r with
  | nil =>
    intro b _ hb u hu
    rw [pack] at hu
    by_cases hb0 : trim b = []
    · rw [if_pos hb0] at hu; simp at hu
    · rw [if_neg hb0] at hu
      simp only [List.mem_singleton] at hu
      subst hu
      rcases hb with hb | hb
      · exact absurd (by rw [hb]; rfl) hb0
      · exact trim_lastPunct hb
  | cons s rest ih =>
    intro b hr hb u hu
    have hs : RPH s := hr s (by simp)
    have hrest : ∀ x ∈ rest, RPH x := fun x hx => hr x (by simp [hx])
    rw [pack] at hu
    by_cases hcond : maxU < (b ++ s).length ∧ b ≠ []
    · rw [if_pos hcond] at hu
      rcases List.mem_cons.mp hu with hu | hu
      · subst hu
        rcases hb with hb | hb
        · exact absurd hb hcond.2
        · exact trim_lastPunct hb
      · exact ih s hrest (Or.inr hs) u hu
    · rw [if_neg hcond] at hu
      exact ih (b ++ s) hrest (Or.inr (rph_append b hs)) u hu

/-! ## Cursor lemmas -/

theorem after_takeWhile {α : Type} {p : α → Bool} :
    ∀ l : List α, l[(l.takeWhile p).length]? = none ∨
      ∃ x, l[(l.takeWhile p).length]? = some x ∧ p x = false := by
  intro l
  induction l with
  | nil => exact Or.inl rfl
  | cons a l ih =>
    by_cases hp : p a
    · rw [List.takeWhile_cons_of_pos hp]
      simpa using ih
    · rw [List.takeWhile_cons_of_neg hp]
      exact Or.inr ⟨a, by simp, by simpa using hp⟩

theorem fns_no_brk (p : List Para) (f : Nat) : p[fns p f]? ≠ some brk := by
  unfold fns
  rw [← List.getElem?_drop]
  rcases after_takeWhile (p := fun q => q == brk) (p.drop f) with h | ⟨x, hx, hpx⟩
  · rw [h]; exact fun hc => Option.noConfusion hc
  · rw [hx]
    intro hc
    have : x = brk := Option.some.inj hc
    subst this
    simp at hpx

theorem fps_no_brk (p : List Para) (g : Int) :
    fps p g = 0 ∨ p[fps p g]? ≠ some brk := by
  unfold fps
  by_cases hg : g < 0
  · rw [if_pos hg]; exact Or.inl rfl
  · rw [if_neg hg]
    induction g.toNat with
    | zero => exact Or.inl rfl
    | succ i ih =>
      rw [fpsNat]
      by_cases hb : p[i + 1]? = some brk
      · rw [if_pos hb]; exact ih
      · rw [if_neg hb]; exact Or.inr hb

/-! ## Parser invariant lemmas -/

theorem flushF_mem {st : PSt} {q : Para} (hq : q ∈ (flushF st).1) :
    q ∈ st.1 ∨ q = trim st.2 := by
  unfold flushF at hq
  by_cases h0 : trim st.2 = []
  · rw [if_pos h0] at hq; exact Or.inl hq
  · rw [if_neg h0] at hq
    rcases List.mem_append.mp hq with h | h
    · exact Or.inl h
    · exact Or.inr (List.mem_singleton.mp h)

theorem flushF_ne_nil {st : PSt} (hst : ∀ q ∈ st.1, q ≠ []) :
    ∀ q ∈ (flushF st).1, q ≠ [] := by
  intro q hq
  rcases flushF_mem hq with h | h
  · exact hst q h
  · subst h
    unfold flushF at hq
    by_cases h0 : trim st.2 = []
    · rw [if_pos h0] at hq; exact hst _ hq
    · exact h0

theorem addBreakF_ne_nil {st : PSt} (hst : ∀ q ∈ st.1, q ≠ []) :
    ∀ q ∈ (addBreakF st).1, q ≠ [] := by
  intro q hq
  unfold addBreakF at hq
  by_cases hc : (flushF st).1 ≠ [] ∧ (flushF st).1.getLast? ≠ some brk
  · rw [if_pos hc] at hq
    rcases List.mem_append.mp hq with h | h
    · exact flushF_ne_nil hst q h
    · rw [List.mem_singleton.mp h]; intro hn; simp [brk] at hn
  · rw [if_neg hc] at hq
    exact flushF_ne_nil hst q hq

theorem parseStep_ne_nil {st : PSt} (line : List Char)
    (hst : ∀ q ∈ st.1, q ≠ []) : ∀ q ∈ (parseStep st line).1, q ≠ [] := by
  intro q hq
  unfold parseStep at hq
  by_cases h1 : trim line = brk ∨ trim line = "---".data
  · rw [if_pos h1] at hq; exact addBreakF_ne_nil hst q hq
  · rw [if_neg h1] at hq
    by_cases h2 : isPre "### ".data (trim line) = true
    · rw [if_pos h2] at hq
      by_cases h3 : stripMd (((trim line).drop 3).dropWhile isWs) = []
      · rw [if_pos h3] at hq; exact addBreakF_ne_nil hst q hq
      · rw [if_neg h3] at hq
        rcases List.mem_append.mp hq with h | h
        · exact addBreakF_ne_nil hst q h
        · rw [List.mem_singleton.mp h]; exact h3
    · rw [if_neg h2] at hq
      by_cases h4 : isChapterTeaser (trim line) = true ∨
          isPre "*End of ".data (trim line) = true ∨
          isPre "*For guided audio".data (trim line) = true
      · rw [if_pos h4] at hq; exact hst q hq
      · rw [if_neg h4] at hq
        by_cases h5 : trim line = []
        · rw [if_pos h5] at hq; exact flushF_ne_nil hst q hq
        · rw [if_neg h5] at hq; exact hst q hq

theorem foldl_parseStep_ne_nil :
    ∀ (lines : List (List Char)) (st : PSt), (∀ q ∈ st.1, q ≠ []) →
      ∀ q ∈ (lines.foldl parseStep st).1, q ≠ [] := by
  intro lines
  induction lines with
  | nil => intro st hst; exact hst
  | cons l ls ih =>
    intro st hst
    exact ih (parseStep st l) (parseStep_ne_nil l hst)

theorem popTrailBrk_getLast (ps : List Para) :
    (popTrailBrk ps).getLast? ≠ some brk := by
  unfold popTrailBrk
  rw [List.getLast?_reverse]
  rcases he : ps.reverse.dropWhile (fun q => q == brk) with _ | ⟨y, ys⟩
  · simp
  · have hyb := head_dropWhile_false he
    simp only [List.head?_cons]
    intro hc
    have hy : y = brk := Option.some.inj hc
    rw [hy] at hyb
    simp at hyb

theorem popTrailBrk_mem {ps : List Para} {q : Para} (hq : q ∈ popTrailBrk ps) :
    q ∈ ps := by
  unfold popTrailBrk at hq
  exact List.mem_reverse.mp (mem_of_mem_dropWhile (List.mem_reverse.mp hq))

/-! ## Controller lemmas -/

theorem fire_stopped (C : List (List Para)) (maxU : Nat) (k : Cb) (st : St)
    (h : st.playing = false) :
    (fire C maxU k st).1.playing = false ∧
      ∀ e ∈ (fire C maxU k st).2.1, isPub e = false := by
  cases k with
  | timerChap => simp [fire, h]
  | timerBreak => simp [fire, h]
  | timerNext ni => simp [fire, h]
  | delayedSpeak txt di => simp [fire, isPub, h]
  | onEnd di => simp [fire, h]
  | onErr canceled di => cases canceled <;> simp [fire, h]
  | nxCont di => simp [fire, nxF, doneF, h]

theorem runSeq_stopped (C : List (List Para)) (maxU : Nat) :
    ∀ (picks : List Nat) (pending : List Cb) (st : St),
      st.playing = false →
      ∀ e ∈ (runSeq C maxU picks pending st).2, isPub e = false := by
  intro picks
  induction picks with
  | nil => intro pending st _ e he; simp [runSeq] at he
  | cons n rest ih =>
    intro pending st h e he
    rw [runSeq] at he
    rcases hp : pending[n]? with _ | k
    · rw [hp] at he
      exact ih pending st h e he
    · rw [hp] at he
      simp only at he
      rcases List.mem_append.mp he with h1 | h1
      · exact (fire_stopped C maxU k st h).2 e h1
      · exact ih _ _ (fire_stopped C maxU k st h).1 e h1

/-! ## Claims -/

/-- Claim C1: once `Stop()` has set the playback state to Stopped and no
further Play/JumpTo/StepParagraph entry point runs, no Position Publisher
call (highlight `hl` or progress `uPr`) is emitted by any previously
scheduled speech-completion or timer continuation, in any order the
scheduler fires them: every continuation re-checks `playing` first. -/
theorem claim1_no_pub_after_stop (C : List (List Para)) (maxU : Nat)
    (picks : List Nat) (pending : List Cb) (st : St) (e : Ev)
    (h : st.playing = false)
    (he : e ∈ (runSeq C maxU picks pending st).2) : isPub e = false :=
  runSeq_stopped C maxU picks pending st h e he

theorem claim1_witness : isPub (Ev.speakE ['x']) = false :=
  claim1_no_pub_after_stop [] 5 [0] [Cb.delayedSpeak ['x'] 0]
    ⟨false, 0, 0, [], 0⟩ (Ev.speakE ['x']) rfl (by decide)

/-- Claim C2, counterexample: `fps` clamps to 0 even when paragraph 0 is a
SectionBreak, so on the chapter `["§", "a"]` the call `fps(0)` returns
index 0, which points at a break — the claim that `prevSpeakable` never
returns a break index is false. -/
theorem claim2_counterexample :
    fps [brk, ['a']] 0 = 0 ∧ [brk, ['a']][0]? = some brk := by
  exact ⟨by decide, by decide⟩

/-- Claim C2, amended: `fns` never returns an index pointing at a
SectionBreak (past the end of the chapter the lookup is empty); `fps`
either returns a non-break index or returns the clamp value 0, which may
itself be a break when every paragraph at or before the start is a
break. -/
theorem claim2_cursor_skips_breaks (p : List Para) (f : Nat) (g : Int) :
    p[fns p f]? ≠ some brk ∧ (fps p g = 0 ∨ p[fps p g]? ≠ some brk) :=
  ⟨fns_no_brk p f, fps_no_brk p g⟩

/-- Claim C3, counterexample: for text no longer than the unit budget,
`split` returns the input verbatim, not trimmed: on `" a "` it returns
`[" a "]`, which differs from the trimmed input `"a"`. -/
theorem claim3_counterexample :
    split 180 " a ".data = [" a ".data] ∧ trim " a ".data ≠ " a ".data := by
  exact ⟨by decide, by decide⟩

/-- Claim C3, amended: for every input text of length at most
`maxUnitLength`, `split` returns exactly one unit, and that unit is the
input unchanged (no trimming happens on this path). -/
theorem claim3_short_input_identity (maxU : Nat) (t : List Char)
    (h : t.length ≤ maxU) : split maxU t = [t] := by
  simp [split, h]

theorem claim3_witness : split 5 " a ".data = [" a ".data] :=
  claim3_short_input_identity 5 " a ".data (by decide)

/-- Claim C4: for every text longer than `maxUnitLength`, every unit
returned by `split` either has length at most `maxUnitLength` or is (the
trim of) a single sentence span that alone exceeds the limit — an accepted
overflow, never a mid-sentence truncation. -/
theorem claim4_units_bounded (maxU : Nat) (t u : List Char)
    (h1 : maxU < t.length) (hu : u ∈ split maxU t) :
    u.length ≤ maxU ∨ fromSpanB t u = true := by
  rw [split, if_neg (Nat.not_le.mpr h1)] at hu
  rcases pack_mem maxU (sentenceSpans t) (sentenceSpans t) []
      (fun _ hs => hs) (Or.inl rfl) u hu with h | ⟨s, hsR, hts⟩
  · exact Or.inl h
  · refine Or.inr ?_
    rw [fromSpanB, List.any_eq_true]
    exact ⟨s, hsR, by simp [hts]⟩

theorem claim4_witness :
    "Yo.".data.length ≤ 3 ∨ fromSpanB "Hi. Yo.".data "Yo.".data = true :=
  claim4_units_bounded 3 "Hi. Yo.".data "Yo.".data (by decide) (by decide)

/-- Claim C5, counterexample: on a whitespace-only text longer than the
unit budget (181 spaces with budget 180), `split` returns the empty
sequence, so the claimed "always non-empty" contract fails. -/
theorem claim5_counterexample :
    split 180 (List.replicate 181 ' ') = [] ∧
      180 < (List.replicate 181 ' ').length := by
  exact ⟨by decide, by decide⟩

/-- Claim C5, amended: `split` returns the empty sequence exactly when the
text is longer than `maxUnitLength` and consists entirely of whitespace;
for every other input (in particular every text containing a
non-whitespace character) the result is non-empty. -/
theorem claim5_nonempty_iff (maxU : Nat) (t : List Char) :
    split maxU t = [] ↔ (maxU < t.length ∧ ∀ c ∈ t, isWs c = true) := by
  constructor
  · intro h
    by_cases hl : t.length ≤ maxU
    · rw [split, if_pos hl] at h; exact absurd h (by simp)
    · refine ⟨Nat.not_le.mp hl, ?_⟩
      by_contra hws
      rw [split, if_neg hl] at h
      refine pack_ne_nil maxU (sentenceSpans t) [] ?_ h
      refine Or.inl ?_
      rcases hscan : scanSpans t with _ | ⟨s, ss⟩
      · exact ⟨t, by simp [sentenceSpans, hscan], hws⟩
      · exact ⟨s, by simp [sentenceSpans, hscan],
          span_has_nonWs (by rw [hscan]; simp)⟩
  · rintro ⟨hl, hws⟩
    rw [split, if_neg (Nat.not_le.mpr hl)]
    have hscan : scanSpans t = [] := scanSpansF_allWs t.length t hws
    have hsp : sentenceSpans t = [t] := by simp [sentenceSpans, hscan]
    rw [hsp, pack, if_neg (by simp)]
    simp [pack, (trim_eq_nil_iff t).mpr hws]

/-- Claim C6: a `canceled` speech error is benign — the state (in
particular the unit index `sI`) is untouched, no event is emitted (so no
user-visible error) and nothing is scheduled; any other speech error
advances the unit index by one, emits nothing, and (only) if still playing
schedules the `nx` continuation that keeps the queue moving. -/
theorem claim6_error_handling (C : List (List Para)) (maxU : Nat)
    (di : Nat) (st : St) :
    fire C maxU (Cb.onErr true di) st = (st, [], []) ∧
    (fire C maxU (Cb.onErr false di) st).1 = { st with sI := st.sI + 1 } ∧
    (fire C maxU (Cb.onErr false di) st).2.1 = [] ∧
    (fire C maxU (Cb.onErr false di) st).2.2 =
      (if st.playing then [Cb.nxCont di] else []) := by
  refine ⟨?_, ?_, ?_, ?_⟩ <;> simp [fire]

/-- Claim C7: when the per-paragraph step `spkP` is reached with a target
index at or beyond the chapter length, then if a next chapter exists the
controller switches to it (chapter index advanced, position and queue
reset), publishes one progress update and schedules the delayed
continue-from-chapter-start continuation; otherwise it transitions to
Stopped (`playing = false` via `stp`) and the event trace contains exactly
one book-complete notification (`[cancelE, toastE]`). -/
theorem claim7_chapter_end (C : List (List Para)) (maxU : Nat) (st : St)
    (i : Nat) (h : (C.getD st.cCh []).length ≤ i) :
    ((st.cCh : Int) < (C.length : Int) - 1 →
      spkP C maxU i st = (rChS st (st.cCh + 1), [Ev.uPrE], [Cb.timerChap])) ∧
    (¬ ((st.cCh : Int) < (C.length : Int) - 1) →
      spkP C maxU i st = (stp st, [Ev.cancelE, Ev.toastE], [])) := by
  constructor <;> intro hc
  · simp only [spkP]
    rw [if_pos h, if_pos hc]
  · simp only [spkP]
    rw [if_pos h, if_neg hc]

theorem claim7_witness :
    spkP [[['a']]] 5 1 ⟨true, 0, 0, [], 0⟩ =
      (stp ⟨true, 0, 0, [], 0⟩, [Ev.cancelE, Ev.toastE], []) :=
  (claim7_chapter_end [[['a']]] 5 ⟨true, 0, 0, [], 0⟩ 1 (by decide)).2
    (by decide)

/-- Claim C8: `stp()` (Stop) is idempotent on the controller state: two
consecutive calls leave exactly the state one call leaves. -/
theorem claim8_stop_idempotent (st : St) : stp (stp st) = stp st := rfl

/-- Claim C9, counterexample: a text line whose Markdown-stripped content
is exactly `"§"` is pushed as an ordinary paragraph, so `parseTxt` can
produce a sequence that begins with `'§'` and contains two consecutive
`'§'` entries; and an H3 heading whose stripped title is whitespace is
pushed un-trimmed (here the whitespace-only paragraph `" "`). -/
theorem claim9_counterexample :
    parseTxt "*§*\n\n*§*\n\nx".data = [brk, brk, "x".data] ∧
    parseTxt "### * *".data = [" ".data] ∧ trim " ".data ≠ " ".data := by
  exact ⟨by decide, by decide, by decide⟩

/-- Claim C9, amended: `parseTxt` never produces a sequence ending in the
break marker (the trailing-pop loop guarantees it) and every element,
break or text, is a non-empty string; but elements are not guaranteed to
be trimmed, index 0 can be a break marker, and consecutive break markers
can occur, because stripped Markdown text equal to `'§'` and
whitespace-only heading titles are pushed as ordinary paragraphs. -/
theorem claim9_parser_invariants (t : List Char) (q : Para)
    (hq : q ∈ parseTxt t) :
    (parseTxt t).getLast? ≠ some brk ∧ q ≠ [] := by
  unfold parseTxt at *
  refine ⟨popTrailBrk_getLast _, ?_⟩
  exact flushF_ne_nil
    (foldl_parseStep_ne_nil _ ([], []) (by intro x hx; simp at hx)) q
    (popTrailBrk_mem hq)

theorem claim9_witness :
    (parseTxt "Hello world.\n\nBye.".data).getLast? ≠ some brk ∧
      "Hello world.".data ≠ [] :=
  claim9_parser_invariants "Hello world.\n\nBye.".data
    "Hello world.".data (by decide)

/-- Claim C10, counterexample: the claim holds only when the sentence
regex actually matches.  `dotsTail` (181 dots then `x`) is longer than
`MAX_U = 180` and contains sentence terminators, but no terminator is
preceded by sentence text, so the regex finds nothing and `split` falls
back to emitting the whole text as one unit — the un-punctuated tail `x`
after the last terminator is emitted, not dropped. -/
theorem claim10_counterexample :
    180 < dotsTail.length ∧ '.' ∈ dotsTail ∧ isPunct '.' = true ∧
      split 180 dotsTail = [dotsTail] ∧ dotsTail.getLast? = some 'x' ∧
      isPunct 'x' = false := by
  exact ⟨by decide, by decide, by decide, by decide, by decide, by decide⟩

/-- Claim C10, amended: for every text longer than `maxUnitLength` on
which the sentence matcher finds at least one span (a terminator preceded
by sentence text), every unit returned by `split` ends in a sentence
terminator — so un-punctuated trailing text after the last terminator is
never emitted; without any such span the whole text is returned verbatim
as the single fallback unit, tail included. -/
theorem claim10_tail_dropped (maxU : Nat) (t u : List Char)
    (h1 : maxU < t.length) (h2 : scanSpans t ≠ []) (hu : u ∈ split maxU t) :
    lastPunct u = true := by
  rw [split, if_neg (Nat.not_le.mpr h1)] at hu
  have hsp : sentenceSpans t = scanSpans t := by
    rcases hs : scanSpans t with _ | ⟨s, ss⟩
    · exact absurd hs h2
    · simp [sentenceSpans, hs]
  rw [hsp] at hu
  exact pack_rph maxU (scanSpans t) [] (fun s hs => scanSpansF_rph _ _ s hs)
    (Or.inl rfl) u hu

theorem claim10_witness : lastPunct "Hi.".data = true :=
  claim10_tail_dropped 3 "Hi. Yo.".data "Hi.".data (by decide) (by decide)
    (by decide)
